import Mathlib

/-!
# Verification of the sea-lex scanning engine

A shallow embedding of the `sea-lex` crate (seaflow's lexer component).
Strings are modelled as `List Char`; all positions and lengths are byte
offsets of the UTF-8 encoding, computed with `Char.utf8Size`, matching the
Rust code's use of byte-indexed `&str` slicing.

The embedding covers:
* `src/sea-lex/src/token_matcher.rs` — `TokenMatcher::matches`
* `src/sea-lex/src/matcher.rs` — `MatcherPattern::matches`
* `src/sea-lex/src/token_creator.rs` — `TokenCreator::create`
* `src/sea-lex/src/token.rs` — `Token`
* `src/sea-lex/src/lexer.rs` — `Lexer::lex`
* `src/sea-lex/src/token_parser.rs` — `IntoTokenResult` / `TokenParser`
* `src/sea-lex/src/error.rs` — `LexError`

The behaviour of the external `regex` crate is modelled by a small
regular-expression abstract syntax (`RE`) with leftmost-first (priority)
matching, the documented semantics of `regex::Regex::find`, alongside a
declarative matching relation (`RMatch`) used to state correctness.
The pattern-compilation step (the spec's Pattern Compiler, the
`Lexer::new` that the derive macro and the `debug.rs` example call) is
not present under `src/`; it is modelled from the spec where marked.
-/

/-- Byte length of the UTF-8 encoding of a character list (Rust `str::len`). -/
def utf8Len (u : List Char) : Nat := (u.map Char.utf8Size).sum

/-- Byte-indexed slicing of a character list: `takeBytes u n` splits `u` into
the prefix of exactly `n` bytes and the rest.  It returns `none` when `n` is
out of bounds or falls in the middle of a multi-byte character — the two
situations in which Rust's `&remaining[..len]` / `&remaining[len..]` panic. -/
def takeBytes : List Char → Nat → Option (List Char × List Char)
  | u, 0 => some ([], u)
  | [], _ + 1 => none
  | c :: rest, n + 1 =>
    if c.utf8Size ≤ n + 1 then
      (takeBytes rest (n + 1 - c.utf8Size)).map (fun p => (c :: p.1, p.2))
    else
      none

/-! ## Regular expressions (model of the external `regex` crate) -/

/-- Regular-expression abstract syntax. -/
inductive RE where
  | emptyset : RE
  | epsilon : RE
  | char (c : Char) : RE
  | alt (r s : RE) : RE
  | cat (r s : RE) : RE
  | star (r : RE) : RE

/-- Declarative matching relation: `RMatch r u` holds when the regular
expression `r` matches exactly the word `u`. -/
inductive RMatch : RE → List Char → Prop where
  | epsilon : RMatch .epsilon []
  | char (c : Char) : RMatch (.char c) [c]
  | altL {r s u} : RMatch r u → RMatch (.alt r s) u
  | altR {r s u} : RMatch s u → RMatch (.alt r s) u
  | cat {r s u v} : RMatch r u → RMatch s v → RMatch (.cat r s) (u ++ v)
  | starNil {r} : RMatch (.star r) []
  | starCons {r u v} : RMatch r u → RMatch (.star r) v → RMatch (.star r) (u ++ v)

/-- Iteration of a match-end enumerator for `star`, in leftmost-first
(greedy) preference order: more iterations are preferred, an empty final
iteration comes last, and zero-length iterations are not repeated (the
`0 < n` guard; the `n ≤ u.length` guard bounds the recursion and is
redundant for enumerators that never overshoot the input). -/
def starEnds (f : List Char → List Nat) (u : List Char) : List Nat :=
  (((f u).filter (fun n => 0 < n ∧ n ≤ u.length)).attach.flatMap
    (fun p => (starEnds f (u.drop p.1)).map (p.1 + ·))) ++ [0]
termination_by u.length
decreasing_by
  have hmem := List.mem_filter.mp p.2
  have hn := of_decide_eq_true hmem.2
  simp only [List.length_drop]
  omega

/-- All end offsets (in characters, counted from the start of `u`) at which
the regular expression `r` can match a prefix of `u`, in the engine's
leftmost-first preference order: alternation prefers its left branch,
concatenation and repetition are greedy.  The head of this list is the
match the backtracking engine reports. -/
def ends : RE → List Char → List Nat
  | .emptyset, _ => []
  | .epsilon, _ => [0]
  | .char _, [] => []
  | .char c, x :: _ => if x = c then [1] else []
  | .alt r s, u => ends r u ++ ends s u
  | .cat r s, u => (ends r u).flatMap (fun n => (ends s (u.drop n)).map (n + ·))
  | .star r, u => starEnds (fun v => ends r v) u

/-- A compiled regular expression: the syntax plus whether matching is
anchored to the start of the probed text.  The anchor is a structural
flag, following the spec's data model for the Pattern Compiler. -/
structure CompiledRegex where
  re : RE
  anchored : Bool

/-- Scan of `regex::Regex::find` for the unanchored case: probe successive
character positions left to right, and at the first position where the
expression can match, report `(start, end)` in character offsets, the end
chosen by leftmost-first preference. -/
def findAux (r : RE) : List Char → Nat → Option (Nat × Nat)
  | u, i =>
    match (ends r u).head? with
    | some n => some (i, i + n)
    | none =>
      match u with
      | [] => none
      | _ :: rest => findAux r rest (i + 1)

/-- Model of `regex::Regex::find`: the leftmost match as a
`(start, end)` pair of character offsets into the haystack, or `none`.
An anchored expression only matches at offset 0. -/
def reFind (p : CompiledRegex) (u : List Char) : Option (Nat × Nat) :=
  if p.anchored then (ends p.re u).head?.map (fun n => (0, n))
  else findAux p.re u 0

/-- Modelled from the spec: the Pattern Compiler's regex branch
(spec §4.1).  The compiler lives in the `Lexer::new` that the derive
macro (`sea-lex-derive/src/lib.rs`) and `examples/debug.rs` call, which
is absent from `src/`; the spec requires it to "force start-anchoring
even if the author's pattern text omits the anchor marker" and to "not
silently double-anchor" an already-anchored pattern.  With the anchor
carried as a structural flag, compilation sets the flag and is
idempotent. -/
def compileRegex (p : CompiledRegex) : CompiledRegex :=
  { p with anchored := true }

/-! ## Matchers

From `src/sea-lex/src/token_matcher.rs` and `src/sea-lex/src/matcher.rs`.
Note the difference between the two regex branches: `TokenMatcher::matches`
returns `m.len()` (the byte length `end - start` of the match), while
`MatcherPattern::matches` returns `m.end()` (the byte offset of the match
end in the probed text).  They agree exactly when the match starts at
offset 0. -/

/-- Type `TokenMatcher` from `src/sea-lex/src/token_matcher.rs`: a literal, a
compiled regular expression, or a custom function. -/
inductive TokenMatcher where
  | Literal (s : List Char)
  | Regex (p : CompiledRegex)
  | Fn (f : List Char → Option Nat)

/-- Function `TokenMatcher::matches` (token_matcher.rs lines 52–58):
`Literal(literal) => input.starts_with(literal).then_some(literal.len())`;
`Regex(regex) => regex.find(input).map(|m| m.len())`;
`Fn(closure) => closure(input)`.  A char-list prefix corresponds exactly
to a byte-for-byte prefix of the UTF-8 encodings, and `literal.len()` and
`m.len()` are byte counts. -/
def TokenMatcher.matches : TokenMatcher → List Char → Option Nat
  | .Literal s, input => if s.isPrefixOf input then some (utf8Len s) else none
  | .Regex p, input =>
    (reFind p input).map (fun m => utf8Len (input.take m.2) - utf8Len (input.take m.1))
  | .Fn f, input => f input

/-- Type `MatcherPattern` from `src/sea-lex/src/matcher.rs`: literal or regex. -/
inductive MatcherPattern where
  | Literal (s : List Char)
  | Regex (p : CompiledRegex)

/-- Function `MatcherPattern::matches` (matcher.rs lines 60–65):
`Literal(s) => input.starts_with(s).then_some(s.len())`;
`Regex(r) => r.find(input).map(|m| m.end())`. -/
def MatcherPattern.matches : MatcherPattern → List Char → Option Nat
  | .Literal s, input => if s.isPrefixOf input then some (utf8Len s) else none
  | .Regex p, input => (reFind p input).map (fun m => utf8Len (input.take m.2))

/-! ## Token creation and the scanning loop

From `src/sea-lex/src/token_creator.rs`, `src/sea-lex/src/token.rs` and
`src/sea-lex/src/lexer.rs`. -/

/-- Type `TokenCreator` from `src/sea-lex/src/token_creator.rs`: clone a fixed
token, build one from the matched text, or create nothing (skip). -/
inductive TokenCreator (T : Type) where
  | Cloned (t : T)
  | Fn (f : List Char → T)
  | None

/-- Method `TokenCreator::create` (token_creator.rs lines 74–83). -/
def TokenCreator.create {T : Type} : TokenCreator T → List Char → Option T
  | .Cloned t, _ => some t
  | .Fn f, contents => some (f contents)
  | .None, _ => none

/-- Record `Token` from `src/sea-lex/src/token.rs`: type, source text and byte
position. -/
structure Token (T : Type) where
  typ : T
  contents : List Char
  position : Nat
deriving DecidableEq

/-- Record `LexerError` as constructed in `src/sea-lex/src/lexer.rs` lines
113–116: the byte position of the cursor and the unmatched character. -/
structure LexerError where
  position : Nat
  unmatched : Char
deriving DecidableEq

/-- Result of running the scanning loop with a finite amount of fuel, used
to render the source's `while` loop as structural recursion.  `panic`
records that a byte slice `&remaining[..len]` fell out of bounds or on a
non-character boundary (a Rust panic); running out of fuel (the `none` of
the surrounding `Option`) means the loop did not finish within the given
number of iterations. -/
inductive LexOutcome (T : Type) where
  | ok (tokens : List (Token T))
  | err (e : LexerError)
  | panic
deriving DecidableEq

/-- The inner `for (creator, matcher) in &self.matchers` loop of
`Lexer::lex` (lexer.rs lines 99–111): the first matcher in declaration
order that returns `Some(len)` wins, together with its creator. -/
def firstMatch {T : Type} :
    List (TokenCreator T × TokenMatcher) → List Char → Option (TokenCreator T × Nat)
  | [], _ => none
  | (creator, matcher) :: rest, input =>
    match matcher.matches input with
    | some len => some (creator, len)
    | none => firstMatch rest input

/-- Function `Lexer::lex` (lexer.rs lines 93–120), one fuel unit per iteration of
the `'outer` loop.  The loop's token `push` is rendered as prepending the
current token to the tokens of the rest of the input; the cursor variables
`remaining` and `position` are the recursion's arguments.  On a match the
source slices `&remaining[..len]` and `&remaining[len..]` (the two
components of `takeBytes`), pushes a token unless the creator returns
`None`, advances `position` by `len` and continues; if no matcher matches
it returns a `LexerError` carrying the cursor position and the first
character of the remaining input (`remaining.chars().next()`, which cannot
be absent since the loop guard ensures `remaining` is non-empty). -/
def lexFuel {T : Type} (matchers : List (TokenCreator T × TokenMatcher)) :
    Nat → List Char → Nat → Option (LexOutcome T)
  | 0, _, _ => none
  | _ + 1, [], _ => some (.ok [])
  | fuel + 1, c :: tail, position =>
    match firstMatch matchers (c :: tail) with
    | none => some (.err ⟨position, c⟩)
    | some (creator, len) =>
      match takeBytes (c :: tail) len with
      | none => some .panic
      | some (matchedText, rest) =>
        match lexFuel matchers fuel rest (position + len) with
        | none => none
        | some .panic => some .panic
        | some (.err e) => some (.err e)
        | some (.ok toks) =>
          match creator.create matchedText with
          | some typ => some (.ok (⟨typ, matchedText, position⟩ :: toks))
          | none => some (.ok toks)

/-- The run of `Lexer::lex` on a whole source string, with enough fuel for any run in
which every loop iteration consumes at least one byte. -/
def lex {T : Type} (matchers : List (TokenCreator T × TokenMatcher))
    (source : List Char) : Option (LexOutcome T) :=
  lexFuel matchers (utf8Len source + 1) source 0

/-! ## The fallible-creator engine

`src/sea-lex/src/error.rs` and `src/sea-lex/src/token_parser.rs` belong to
the crate's generation whose scanning engine (`Lexer::new` /
`Lexer::collect`, called by `sea-lex-derive/src/lib.rs`,
`examples/debug.rs` and the integration tests) is not present under
`src/`.  The error type and the parse-wrapping land here straight from the
source; the engine itself is modelled from the spec where marked. -/

/-- Type `LexError` from `src/sea-lex/src/error.rs`.  The nested causes
(`regex::Error`, `Box<dyn Error>`) are modelled by a message string for
`InvalidRegex` and an arbitrary cause type `ε` for `TokenParseError`. -/
inductive LexError (ε : Type) where
  | UnexpectedChar (position : Nat) (character : Char)
  | InvalidRegex (pattern : List Char) (error : List Char)
  | TokenParseError (position : Nat) (error : ε)

/-- Impl `IntoTokenResult for Result<T, E>` (token_parser.rs lines 29–39):
`self.map_err(|e| LexError::TokenParseError { position, error: Box::new(e) })`. -/
def intoTokenResult {ε α : Type} (r : Except ε α) (position : Nat) :
    Except (LexError ε) α :=
  match r with
  | .ok v => .ok v
  | .error e => .error (.TokenParseError position e)

/-- Impl `TokenParser for F` (token_parser.rs lines 42–50):
`self(input).into_token_result(position)`. -/
def parseWith {ε α : Type} (f : List Char → Except ε α) (input : List Char)
    (position : Nat) : Except (LexError ε) α :=
  intoTokenResult (f input) position

/-- The spec's Creator capability (spec §3, §4.3): a fixed value, a
fallible field parser, or skip.  The derive macro wraps every field
constructor as `TokenCreator::Parser(move |text, position| parser.parse(text, position))`. -/
inductive Creator (ε T : Type) where
  | Unit (t : T)
  | Parser (f : List Char → Except ε T)
  | Skip

/-- Modelled from the spec: `create(matched_text, absolute_start_position)`
(spec §4.3).  `Unit` ignores the text; `Parser` routes through the source's
`TokenParser::parse` wrapping (`parseWith`), recording the absolute start
position of the matched span on failure; `Skip` produces no token. -/
def Creator.create {ε T : Type} : Creator ε T → List Char → Nat →
    Except (LexError ε) (Option T)
  | .Unit t, _, _ => .ok (some t)
  | .Parser f, text, start => (parseWith f text start).map some
  | .Skip, _, _ => .ok none

/-- The spec's `TokenInfo` record (spec §3); `end` is spelt `stop` because
`end` is a reserved word. -/
structure TokenInfo (T : Type) where
  kind : T
  text : List Char
  start : Nat
  stop : Nat

/-- First skip matcher (in declaration order) succeeding on the input,
with its consumed length (spec §4.4 step 1). -/
def firstSkip : List TokenMatcher → List Char → Option Nat
  | [], _ => none
  | m :: rest, input =>
    match m.matches input with
    | some len => some len
    | none => firstSkip rest input

/-- First token rule (in declaration order) whose matcher succeeds on the
input, with its creator and consumed length (spec §4.4 step 3). -/
def firstRule {ε T : Type} :
    List (TokenMatcher × Creator ε T) → List Char → Option (Creator ε T × Nat)
  | [], _ => none
  | (matcher, creator) :: rest, input =>
    match matcher.matches input with
    | some len => some (creator, len)
    | none => firstRule rest input

/-- Outcome of the spec engine's batch operation; `stuck` records a byte
slice falling outside a character boundary (the spec leaves this
unspecified; it cannot occur for in-contract matchers). -/
inductive ScanOutcome (ε T : Type) where
  | ok (tokens : List (TokenInfo T))
  | err (e : LexError ε)
  | stuck

/-- Modelled from the spec: the Scanning Engine's batch operation
(spec §4.4), with one fuel unit per consumed match.  At each position the
skip list is probed to exhaustion first; then the first token rule whose
matcher succeeds wins; its creator is invoked with the matched text and
the span's start position; a creator failure is terminal (the collected
tokens are discarded and the error is the result); a `Skip`-creator match
consumes without emitting. -/
def scanFuel {ε T : Type} (skips : List TokenMatcher)
    (rules : List (TokenMatcher × Creator ε T)) :
    Nat → List Char → Nat → Option (ScanOutcome ε T)
  | 0, _, _ => none
  | _ + 1, [], _ => some (.ok [])
  | fuel + 1, c :: tail, cursor =>
    match firstSkip skips (c :: tail) with
    | some len =>
      match takeBytes (c :: tail) len with
      | none => some .stuck
      | some (_, rest) => scanFuel skips rules fuel rest (cursor + len)
    | none =>
      match firstRule rules (c :: tail) with
      | none => some (.err (.UnexpectedChar cursor c))
      | some (creator, len) =>
        match takeBytes (c :: tail) len with
        | none => some .stuck
        | some (text, rest) =>
          match creator.create text cursor with
          | .error e => some (.err e)
          | .ok none => scanFuel skips rules fuel rest (cursor + len)
          | .ok (some kind) =>
            match scanFuel skips rules fuel rest (cursor + len) with
            | none => none
            | some .stuck => some .stuck
            | some (.err e) => some (.err e)
            | some (.ok toks) => some (.ok (⟨kind, text, cursor, cursor + len⟩ :: toks))

/-- Predicate `spansChain pos spans stop`: the `(start, byte length, emitted)` triples
in `spans` tile the byte interval `[pos, stop)` consecutively, in order,
with no gap and no overlap. -/
def spansChain : Nat → List (Nat × Nat × Bool) → Nat → Prop
  | pos, [], stop => pos = stop
  | pos, (s, l, _) :: rest, stop => s = pos ∧ spansChain (pos + l) rest stop

/-! ## Byte-length and slicing lemmas -/

theorem utf8Len_nil : utf8Len [] = 0 := rfl

theorem utf8Len_cons (c : Char) (u : List Char) :
    utf8Len (c :: u) = c.utf8Size + utf8Len u := by
  simp [utf8Len]

theorem utf8Len_append (a b : List Char) :
    utf8Len (a ++ b) = utf8Len a + utf8Len b := by
  simp [utf8Len]

theorem utf8Len_le_of_le {u : List Char} {j k : Nat} (h : j ≤ k) :
    utf8Len (u.take j) ≤ utf8Len (u.take k) := by
  calc utf8Len (u.take j) = utf8Len ((u.take k).take j) := by
        rw [List.take_take, Nat.min_eq_left h]
    _ ≤ utf8Len ((u.take k).take j) + utf8Len ((u.take k).drop j) := Nat.le_add_right _ _
    _ = utf8Len (u.take k) := by rw [← utf8Len_append, List.take_append_drop]

theorem takeBytes_sound : ∀ (u : List Char) (n : Nat) (a b : List Char),
    takeBytes u n = some (a, b) → u = a ++ b ∧ utf8Len a = n := by
  intro u
  induction u with
  | nil =>
    intro n a b h
    match n with
    | 0 => simp [takeBytes] at h; simp [h.1, h.2, utf8Len_nil]
    | _ + 1 => simp [takeBytes] at h
  | cons c rest ih =>
    intro n a b h
    match n with
    | 0 => simp [takeBytes] at h; simp [h.1, h.2, utf8Len_nil]
    | m + 1 =>
      simp only [takeBytes] at h
      by_cases hc : c.utf8Size ≤ m + 1
      · rw [if_pos hc] at h
        obtain ⟨⟨a', b'⟩, hrec, heq⟩ := Option.map_eq_some'.mp h
        obtain ⟨h1, h2⟩ := ih (m + 1 - c.utf8Size) a' b' hrec
        obtain ⟨rfl, rfl⟩ : a = c :: a' ∧ b = b' := by
          constructor <;> simp_all
        constructor
        · simp [h1]
        · rw [utf8Len_cons, h2]; omega
      · rw [if_neg hc] at h; exact absurd h (by simp)

theorem takeBytes_take : ∀ (k : Nat) (u : List Char), k ≤ u.length →
    takeBytes u (utf8Len (u.take k)) = some (u.take k, u.drop k) := by
  intro k
  induction k with
  | zero => intro u _; simp [utf8Len, takeBytes]
  | succ k ih =>
    intro u h
    match u with
    | [] => simp at h
    | c :: rest =>
      have hpos := Char.utf8Size_pos c
      have hlen : utf8Len ((c :: rest).take (k + 1)) = c.utf8Size + utf8Len (rest.take k) := by
        simp [utf8Len]
      obtain ⟨m, hm⟩ : ∃ m, utf8Len ((c :: rest).take (k + 1)) = m + 1 :=
        ⟨utf8Len ((c :: rest).take (k + 1)) - 1, by omega⟩
      rw [hm]
      have hc : c.utf8Size ≤ m + 1 := by omega
      have hsub : m + 1 - c.utf8Size = utf8Len (rest.take k) := by omega
      simp only [takeBytes, if_pos hc, hsub]
      rw [ih rest (by simpa using h)]
      simp

/-! ## First-matcher lemmas (the inner rule loop of `Lexer::lex`) -/

theorem firstMatch_eq_none_iff {T : Type}
    (ms : List (TokenCreator T × TokenMatcher)) (input : List Char) :
    firstMatch ms input = none ↔ ∀ cm ∈ ms, cm.2.matches input = none := by
  induction ms with
  | nil => simp [firstMatch]
  | cons head rest ih =>
    obtain ⟨cr, m⟩ := head
    simp only [firstMatch]
    match hm : m.matches input with
    | some len => simp [hm]
    | none => simpa [hm] using ih

theorem firstMatch_mem {T : Type} {ms : List (TokenCreator T × TokenMatcher)}
    {input : List Char} {cr : TokenCreator T} {len : Nat}
    (h : firstMatch ms input = some (cr, len)) :
    ∃ m, (cr, m) ∈ ms ∧ m.matches input = some len := by
  induction ms with
  | nil => simp [firstMatch] at h
  | cons head rest ih =>
    obtain ⟨cr', m'⟩ := head
    simp only [firstMatch] at h
    match hm : m'.matches input with
    | some len' =>
      rw [hm] at h
      obtain ⟨rfl, rfl⟩ : cr' = cr ∧ len' = len := by
        constructor <;> simp_all
      exact ⟨m', by simp, hm⟩
    | none =>
      rw [hm] at h
      obtain ⟨m, hmem, hmat⟩ := ih h
      exact ⟨m, by simp [hmem], hmat⟩

theorem firstMatch_append {T : Type}
    (pre post : List (TokenCreator T × TokenMatcher)) (cr : TokenCreator T)
    (m : TokenMatcher) (input : List Char) (len : Nat)
    (hpre : ∀ cm ∈ pre, cm.2.matches input = none)
    (hm : m.matches input = some len) :
    firstMatch (pre ++ (cr, m) :: post) input = some (cr, len) := by
  induction pre with
  | nil => simp [firstMatch, hm]
  | cons head rest ih =>
    have hhead : head.2.matches input = none := hpre head (by simp)
    have hrest : ∀ cm ∈ rest, cm.2.matches input = none :=
      fun cm hcm => hpre cm (by simp [hcm])
    obtain ⟨cr', m'⟩ := head
    simp only [List.cons_append, firstMatch]
    rw [hhead]
    exact ih hrest

/-! ## Correctness of the match-end enumeration -/

theorem mem_starEnds_iff (f : List Char → List Nat) (u : List Char) (n : Nat) :
    n ∈ starEnds f u ↔
      n = 0 ∨ ∃ k, (k ∈ f u ∧ 0 < k ∧ k ≤ u.length) ∧
        ∃ m, m ∈ starEnds f (u.drop k) ∧ n = k + m := by
  conv_lhs => rw [starEnds]
  simp only [List.mem_append, List.mem_flatMap, List.mem_attach, List.mem_map,
    List.mem_filter, List.mem_singleton, true_and, Subtype.exists, decide_eq_true_eq]
  constructor
  · rintro (⟨k, ⟨hk, hpos, hle⟩, m, hm, rfl⟩ | rfl)
    · exact Or.inr ⟨k, ⟨hk, hpos, hle⟩, m, hm, rfl⟩
    · exact Or.inl rfl
  · rintro (rfl | ⟨k, ⟨hk, hpos, hle⟩, m, hm, rfl⟩)
    · exact Or.inr rfl
    · exact Or.inl ⟨k, ⟨hk, hpos, hle⟩, m, hm, rfl⟩

theorem mem_starEnds_le (f : List Char → List Nat) :
    ∀ (L : Nat) (u : List Char), u.length ≤ L → ∀ n ∈ starEnds f u, n ≤ u.length := by
  intro L
  induction L with
  | zero =>
    intro u hu n hn
    rcases (mem_starEnds_iff f u n).mp hn with rfl | ⟨k, ⟨_, hpos, hle⟩, _⟩
    · exact Nat.zero_le _
    · omega
  | succ L ih =>
    intro u hu n hn
    rcases (mem_starEnds_iff f u n).mp hn with rfl | ⟨k, ⟨_, hpos, hle⟩, m, hm, rfl⟩
    · exact Nat.zero_le _
    · have hdrop : (u.drop k).length ≤ L := by
        simp only [List.length_drop]; omega
      have := ih (u.drop k) hdrop m hm
      simp only [List.length_drop] at this
      omega

theorem mem_ends_le : ∀ (r : RE) (u : List Char) (n : Nat), n ∈ ends r u → n ≤ u.length := by
  intro r
  induction r with
  | emptyset => intro u n h; simp [ends] at h
  | epsilon => intro u n h; simp [ends] at h; omega
  | char c =>
    intro u n h
    match u with
    | [] => simp [ends] at h
    | x :: rest =>
      simp only [ends] at h
      by_cases hx : x = c
      · rw [if_pos hx] at h
        simp at h
        simp [h]
      · rw [if_neg hx] at h; simp at h
  | alt r s ihr ihs =>
    intro u n h
    rcases List.mem_append.mp h with h | h
    · exact ihr u n h
    · exact ihs u n h
  | cat r s ihr ihs =>
    intro u n h
    simp only [ends, List.mem_flatMap, List.mem_map] at h
    obtain ⟨a, ha, b, hb, rfl⟩ := h
    have h1 := ihr u a ha
    have h2 := ihs (u.drop a) b hb
    simp only [List.length_drop] at h2
    omega
  | star r ih =>
    intro u n h
    exact mem_starEnds_le (fun v => ends r v) u.length u le_rfl n h

theorem ends_sound : ∀ (r : RE) (u : List Char) (n : Nat),
    n ∈ ends r u → RMatch r (u.take n) := by
  intro r
  induction r with
  | emptyset => intro u n h; simp [ends] at h
  | epsilon =>
    intro u n h
    simp [ends] at h
    subst h
    simpa using RMatch.epsilon
  | char c =>
    intro u n h
    match u with
    | [] => simp [ends] at h
    | x :: rest =>
      simp only [ends] at h
      by_cases hx : x = c
      · rw [if_pos hx] at h
        simp at h
        subst h
        subst hx
        simpa using RMatch.char x
      · rw [if_neg hx] at h; simp at h
  | alt r s ihr ihs =>
    intro u n h
    rcases List.mem_append.mp h with h | h
    · exact RMatch.altL (ihr u n h)
    · exact RMatch.altR (ihs u n h)
  | cat r s ihr ihs =>
    intro u n h
    simp only [ends, List.mem_flatMap, List.mem_map] at h
    obtain ⟨a, ha, b, hb, rfl⟩ := h
    rw [List.take_add]
    exact RMatch.cat (ihr u a ha) (ihs (u.drop a) b hb)
  | star r ih =>
    intro u n h
    have main : ∀ (L : Nat) (v : List Char), v.length ≤ L →
        ∀ m ∈ starEnds (fun w => ends r w) v, RMatch (.star r) (v.take m) := by
      intro L
      induction L with
      | zero =>
        intro v hv m hm
        rcases (mem_starEnds_iff _ v m).mp hm with rfl | ⟨k, ⟨_, hpos, hle⟩, _⟩
        · simpa using RMatch.starNil
        · omega
      | succ L ihL =>
        intro v hv m hm
        rcases (mem_starEnds_iff _ v m).mp hm with rfl | ⟨k, ⟨hk, hpos, hle⟩, m', hm', rfl⟩
        · simpa using RMatch.starNil
        · have hdrop : (v.drop k).length ≤ L := by
            simp only [List.length_drop]; omega
        
          have h1 : RMatch r (v.take k) := ih v k hk
          have h2 : RMatch (.star r) ((v.drop k).take m') := ihL (v.drop k) hdrop m' hm'
          rw [List.take_add]
          exact RMatch.starCons h1 h2
    exact main u.length u le_rfl n h

theorem ends_complete : ∀ {re : RE} {w : List Char}, RMatch re w →
    ∀ (u : List Char) (n : Nat), n ≤ u.length → u.take n = w → n ∈ ends re u := by
  intro re w h
  induction h with
  | epsilon =>
    intro u n hn hw
    have : n = 0 := by
      have := congrArg List.length hw
      simp [Nat.min_eq_left hn] at this
      exact this
    subst this
    simp [ends]
  | char c =>
    intro u n hn hw
    have hlen : n = 1 := by
      have := congrArg List.length hw
      simp [Nat.min_eq_left hn] at this
      exact this
    subst hlen
    match u with
    | [] => simp at hn
    | x :: rest =>
      have hx : x = c := by
        simp at hw
        exact hw
      simp [ends, hx]
  | altL h ih =>
    intro u n hn hw
    exact List.mem_append.mpr (Or.inl (ih u n hn hw))
  | altR h ih =>
    intro u n hn hw
    exact List.mem_append.mpr (Or.inr (ih u n hn hw))
  | cat h1 h2 ih1 ih2 =>
    rename_i r s w1 w2
    intro u n hn hw
    have hlen : n = w1.length + w2.length := by
      have := congrArg List.length hw
      simp [Nat.min_eq_left hn] at this
      exact this
    have hk : w1.length ≤ n := by omega
    have htake : u.take w1.length = w1 := by
      calc u.take w1.length = (u.take n).take w1.length := by
            rw [List.take_take, Nat.min_eq_left hk]
        _ = (w1 ++ w2).take w1.length := by rw [hw]
        _ = w1 := List.take_left w1 w2
    have hdrop : (u.drop w1.length).take (n - w1.length) = w2 := by
      calc (u.drop w1.length).take (n - w1.length) = (u.take n).drop w1.length := by
            rw [List.drop_take]
        _ = (w1 ++ w2).drop w1.length := by rw [hw]
        _ = w2 := List.drop_left w1 w2
    have m1 : w1.length ∈ ends r u := ih1 u w1.length (by omega) htake
    have m2 : n - w1.length ∈ ends s (u.drop w1.length) := by
      apply ih2 (u.drop w1.length) (n - w1.length) _ hdrop
      simp only [List.length_drop]
      omega
    simp only [ends, List.mem_flatMap, List.mem_map]
    exact ⟨w1.length, m1, n - w1.length, m2, by omega⟩
  | starNil =>
    intro u n hn hw
    have : n = 0 := by
      have := congrArg List.length hw
      simp [Nat.min_eq_left hn] at this
      exact this
    subst this
    simp only [ends]
    exact (mem_starEnds_iff _ u 0).mpr (Or.inl rfl)
  | starCons h1 h2 ih1 ih2 =>
    rename_i r w1 w2
    intro u n hn hw
    have hlen : n = w1.length + w2.length := by
      have := congrArg List.length hw
      simp [Nat.min_eq_left hn] at this
      exact this
    have hk : w1.length ≤ n := by omega
    by_cases hz : w1.length = 0
    · have hw1 : w1 = [] := List.length_eq_zero.mp hz
      subst hw1
      simp only [List.nil_append] at hw
      exact ih2 u n hn hw
    · have htake : u.take w1.length = w1 := by
        calc u.take w1.length = (u.take n).take w1.length := by
              rw [List.take_take, Nat.min_eq_left hk]
          _ = (w1 ++ w2).take w1.length := by rw [hw]
          _ = w1 := List.take_left w1 w2
      have hdrop : (u.drop w1.length).take (n - w1.length) = w2 := by
        calc (u.drop w1.length).take (n - w1.length) = (u.take n).drop w1.length := by
              rw [List.drop_take]
          _ = (w1 ++ w2).drop w1.length := by rw [hw]
          _ = w2 := List.drop_left w1 w2
      have m1 : w1.length ∈ ends r u := ih1 u w1.length (by omega) htake
      have m2 : n - w1.length ∈ ends (.star r) (u.drop w1.length) := by
        apply ih2 (u.drop w1.length) (n - w1.length) _ hdrop
        simp only [List.length_drop]
        omega
      simp only [ends] at m2 ⊢
      apply (mem_starEnds_iff _ u n).mpr
      refine Or.inr ⟨w1.length, ⟨m1, by omega, by omega⟩, n - w1.length, m2, by omega⟩

/-! ## Anchored-matcher bridge lemmas -/

theorem anchored_tokenMatcher_matches {p : CompiledRegex} (hp : p.anchored = true)
    (s : List Char) :
    (TokenMatcher.Regex p).matches s =
      (ends p.re s).head?.map (fun e => utf8Len (s.take e)) := by
  simp only [TokenMatcher.matches, reFind, hp, if_pos]
  match (ends p.re s).head? with
  | none => rfl
  | some e => simp [utf8Len]

theorem anchored_matcherPattern_matches {p : CompiledRegex} (hp : p.anchored = true)
    (s : List Char) :
    (MatcherPattern.Regex p).matches s =
      (ends p.re s).head?.map (fun e => utf8Len (s.take e)) := by
  simp only [MatcherPattern.matches, reFind, hp, if_pos]
  match (ends p.re s).head? with
  | none => rfl
  | some e => simp

/-! ## Span chains: consecutive half-open byte intervals -/

theorem spansChain_sum : ∀ (spans : List (Nat × Nat × Bool)) (pos stop : Nat),
    spansChain pos spans stop → pos + (spans.map (fun x => x.2.1)).sum = stop := by
  intro spans
  induction spans with
  | nil => intro pos stop h; simpa [spansChain] using h
  | cons x rest ih =>
    obtain ⟨s, l, b⟩ := x
    intro pos stop h
    obtain ⟨rfl, hrest⟩ := h
    have := ih (s + l) stop hrest
    simp only [List.map_cons, List.sum_cons]
    omega

theorem spansChain_mem_le : ∀ (spans : List (Nat × Nat × Bool)) (pos stop : Nat),
    spansChain pos spans stop → ∀ x ∈ spans, pos ≤ x.1 := by
  intro spans
  induction spans with
  | nil => intro pos stop _ x hx; simp at hx
  | cons y rest ih =>
    obtain ⟨s, l, b⟩ := y
    intro pos stop h x hx
    obtain ⟨rfl, hrest⟩ := h
    rcases List.mem_cons.mp hx with rfl | hx
    · exact le_rfl
    · have := ih (s + l) stop hrest x hx
      omega

theorem spansChain_pairwise : ∀ (spans : List (Nat × Nat × Bool)) (pos stop : Nat),
    spansChain pos spans stop → spans.Pairwise (fun a b => a.1 + a.2.1 ≤ b.1) := by
  intro spans
  induction spans with
  | nil => intro pos stop _; exact List.Pairwise.nil
  | cons y rest ih =>
    obtain ⟨s, l, b⟩ := y
    intro pos stop h
    obtain ⟨rfl, hrest⟩ := h
    refine List.Pairwise.cons ?_ (ih (s + l) stop hrest)
    intro x hx
    exact spansChain_mem_le rest (s + l) stop hrest x hx

theorem sum_map_filter_split {α : Type} (p : α → Bool) (f : α → Nat) :
    ∀ l : List α,
      ((l.filter p).map f).sum + ((l.filter (fun x => !(p x))).map f).sum = (l.map f).sum := by
  intro l
  induction l with
  | nil => simp
  | cons x rest ih =>
    cases hx : p x with
    | true =>
      simp [List.filter_cons, hx]
      omega
    | false =>
      simp [List.filter_cons, hx]
      omega

/-- The main loop invariant of `Lexer::lex`: a successful run tiles the
byte interval of the remaining input with the matched spans, in cursor
order, and the emitted tokens are exactly the spans whose creator produced
a token. -/
theorem lexFuel_spans {T : Type} (matchers : List (TokenCreator T × TokenMatcher)) :
    ∀ (fuel : Nat) (rem : List Char) (pos : Nat) (toks : List (Token T)),
      lexFuel matchers fuel rem pos = some (.ok toks) →
      ∃ spans : List (Nat × Nat × Bool),
        spansChain pos spans (pos + utf8Len rem) ∧
        toks.map (fun t => (t.position, utf8Len t.contents)) =
          (spans.filter (fun x => x.2.2)).map (fun x => (x.1, x.2.1)) := by
  intro fuel
  induction fuel with
  | zero => intro rem pos toks h; simp [lexFuel] at h
  | succ fuel ih =>
    intro rem pos toks h
    match rem with
    | [] =>
      simp only [lexFuel, Option.some.injEq, LexOutcome.ok.injEq] at h
      subst h
      exact ⟨[], by simp [spansChain, utf8Len], by simp⟩
    | c :: tail =>
      simp only [lexFuel] at h
      split at h
      · simp at h
      · rename_i creator len hfm
        split at h
        · simp at h
        · rename_i text rest htb
          split at h
          · simp at h
          · simp at h
          · simp at h
          · rename_i toks' hrec
            obtain ⟨hsplit, hlen⟩ := takeBytes_sound _ _ _ _ htb
            have hrem : utf8Len (c :: tail) = len + utf8Len rest := by
              rw [hsplit, utf8Len_append, hlen]
            obtain ⟨spans', hchain, heq⟩ := ih rest (pos + len) toks' hrec
            have hstop : pos + len + utf8Len rest = pos + utf8Len (c :: tail) := by
              rw [hrem]; omega
            rw [hstop] at hchain
            split at h
            · rename_i typ hc
              simp only [Option.some.injEq, LexOutcome.ok.injEq] at h
              subst h
              refine ⟨(pos, len, true) :: spans', ⟨rfl, hchain⟩, ?_⟩
              simp [heq, hlen]
            · rename_i hc
              simp only [Option.some.injEq, LexOutcome.ok.injEq] at h
              subst h
              exact ⟨(pos, len, false) :: spans', ⟨rfl, hchain⟩, by simpa using heq⟩

/-! ## Claims -/

/-- Claim C8: for every matcher table, lexing the empty input string
returns `Ok` with an empty token list — zero tokens and no error
(lexer.rs lines 93–120: the `while !remaining.is_empty()` guard fails
immediately and `Ok(tokens)` is returned with `tokens` still empty). -/
theorem C8_empty_input {T : Type} (matchers : List (TokenCreator T × TokenMatcher)) :
    lex matchers [] = some (.ok []) := rfl

/-- Claim C5: for every literal matcher with pattern `p` and every input
`s`, `matches` returns `Some(byte length of p)` iff `s` starts with `p`
byte-for-byte, and `None` otherwise; `p` ranges over all character lists,
so regex metacharacters (`+`, `.`, `*`, parentheses, brackets, backslash)
in `p` are matched as plain characters — the `Literal` branch performs a
direct prefix comparison and never consults the regular-expression
engine.  The `MatcherPattern::matches` literal branch (matcher.rs) agrees
with the `TokenMatcher::matches` one (token_matcher.rs). -/
theorem C5_literal_matcher (p s : List Char) :
    (∀ n, (TokenMatcher.Literal p).matches s = some n ↔ p <+: s ∧ n = utf8Len p) ∧
    ((TokenMatcher.Literal p).matches s = none ↔ ¬ p <+: s) ∧
    (MatcherPattern.Literal p).matches s = (TokenMatcher.Literal p).matches s := by
  have hiff : p.isPrefixOf s = true ↔ p <+: s := List.isPrefixOf_iff_prefix
  refine ⟨?_, ⟨?_, ?_⟩, rfl⟩
  · intro n
    constructor
    · intro h
      simp only [TokenMatcher.matches] at h
      split at h
      · rename_i hpre
        exact ⟨hiff.mp hpre, (Option.some.inj h).symm⟩
      · exact absurd h (by simp)
    · rintro ⟨hp, rfl⟩
      simp only [TokenMatcher.matches, if_pos (hiff.mpr hp)]
  · intro h hp
    simp only [TokenMatcher.matches, if_pos (hiff.mpr hp)] at h
    exact absurd h (by simp)
  · intro hp
    simp only [TokenMatcher.matches]
    rw [if_neg (fun hpre => hp (hiff.mp hpre))]

/-- Witness for C5: a literal made of regex metacharacters matches as
plain text on a byte-for-byte prefix. -/
theorem C5_witness :
    (TokenMatcher.Literal ['+', '.', '*']).matches ['+', '.', '*', 'x'] = some 3 :=
  ((C5_literal_matcher ['+', '.', '*'] ['+', '.', '*', 'x']).1 3).mpr
    ⟨by decide, by decide⟩

/-- Claim C2: the rule applied at a cursor position is the first
(lowest-index) entry of the ordered matcher list whose matcher succeeds on
the remaining input — `firstMatch` is the inner `for` loop of
`Lexer::lex` (lexer.rs lines 99–111), the only place the rule table is
consulted.  The trailing rules `post` are universally quantified, so the
outcome is independent of every later rule, irrespective of how many
bytes any later rule would have consumed. -/
theorem C2_priority_order {T : Type}
    (pre post : List (TokenCreator T × TokenMatcher)) (creator : TokenCreator T)
    (m : TokenMatcher) (input : List Char) (len : Nat)
    (hpre : ∀ cm ∈ pre, cm.2.matches input = none)
    (hm : m.matches input = some len) :
    firstMatch (pre ++ (creator, m) :: post) input = some (creator, len) :=
  firstMatch_append pre post creator m input len hpre hm

/-- Witness for C2: an earlier one-byte literal pre-empts a later matcher
that would consume two bytes. -/
theorem C2_witness :
    firstMatch ([((TokenCreator.Cloned 0 : TokenCreator Nat), TokenMatcher.Literal ['z'])] ++
        ((TokenCreator.Cloned 1 : TokenCreator Nat), TokenMatcher.Literal ['a']) ::
        [((TokenCreator.Cloned 2 : TokenCreator Nat), TokenMatcher.Fn (fun _ => some 2))])
      ['a', 'b'] = some (TokenCreator.Cloned 1, 1) :=
  C2_priority_order _ _ _ _ ['a', 'b'] 1
    (by intro cm hcm; simp only [List.mem_singleton] at hcm; subst hcm; rfl)
    (by have h : utf8Len ['a'] = 1 := by decide
        simp only [TokenMatcher.matches, ← h]
        rw [if_pos (by decide)])

/-- Claim C4: if no matcher in the list matches the remaining input, the
scan returns an error whose position is the cursor's byte offset (the
`position` accumulator of `Lexer::lex`) and whose character is the first
codepoint of the remaining input (lexer.rs lines 113–116); the batch
result is that error, not an `Ok` value, so zero tokens are exposed and
anything collected earlier is discarded. -/
theorem C4_unmatched_error {T : Type}
    (matchers : List (TokenCreator T × TokenMatcher)) (fuel pos : Nat) (c : Char)
    (tail : List Char)
    (hall : ∀ cm ∈ matchers, cm.2.matches (c :: tail) = none) :
    lexFuel matchers (fuel + 1) (c :: tail) pos = some (.err ⟨pos, c⟩) ∧
    ∀ toks, lexFuel matchers (fuel + 1) (c :: tail) pos ≠ some (.ok toks) := by
  have hfm : firstMatch matchers (c :: tail) = none :=
    (firstMatch_eq_none_iff matchers (c :: tail)).mpr hall
  refine ⟨?_, ?_⟩
  · simp [lexFuel, hfm]
  · intro toks
    simp [lexFuel, hfm]

/-- Witness for C4: with only a digit literal available, the scan stops at
the `$` with its exact byte offset. -/
theorem C4_witness :
    lexFuel [((TokenCreator.Cloned 0 : TokenCreator Nat), TokenMatcher.Literal ['1'])]
      1 ['$', '5'] 4 = some (.err ⟨4, '$'⟩) :=
  (C4_unmatched_error _ 0 4 '$' ['5']
    (by intro cm hcm; simp only [List.mem_singleton] at hcm; subst hcm; rfl)).1

/-- Claim C6: when the winning rule's creator is the skip (`None`)
variant, `create` returns `None` on every matched text
(token_creator.rs lines 74–83), and the scan step is literally the scan
of the rest: the cursor advances by the matched length, no token is
appended, and the result is exactly as if the skipped span were absent
(lexer.rs lines 104–109). -/
theorem C6_skip_creator {T : Type}
    (matchers : List (TokenCreator T × TokenMatcher)) (fuel pos len : Nat) (c : Char)
    (tail text rest : List Char)
    (hfm : firstMatch matchers (c :: tail) = some (TokenCreator.None, len))
    (htb : takeBytes (c :: tail) len = some (text, rest)) :
    (∀ txt : List Char, (TokenCreator.None : TokenCreator T).create txt = none) ∧
    lexFuel matchers (fuel + 1) (c :: tail) pos = lexFuel matchers fuel rest (pos + len) := by
  refine ⟨fun _ => rfl, ?_⟩
  simp only [lexFuel, hfm, htb]
  match hrec : lexFuel matchers fuel rest (pos + len) with
  | none => simp
  | some .panic => simp
  | some (.err e) => simp
  | some (.ok toks) => simp [TokenCreator.create]

/-- Witness for C6: skipping a space advances the cursor one byte and
emits nothing. -/
theorem C6_witness :
    lexFuel [((TokenCreator.None : TokenCreator Nat), TokenMatcher.Literal [' '])]
      2 [' ', 'a'] 0 =
      lexFuel [((TokenCreator.None : TokenCreator Nat), TokenMatcher.Literal [' '])]
      1 ['a'] 1 :=
  (C6_skip_creator [((TokenCreator.None : TokenCreator Nat), TokenMatcher.Literal [' '])]
    1 0 1 ' ' ['a'] [' '] ['a'] rfl rfl).2

/-- Claim C1: for a regex-based matcher whose pattern went through the
Pattern Compiler, `matches(s)` returns `Some(n)` exactly when the
compiled expression matches a prefix of `s` anchored at offset 0, with
`n` the end byte offset of that anchored match (the one the
leftmost-first engine selects), and returns `None` when no match is
anchored at offset 0.  The compiler forces start-anchoring whatever the
author's anchor flag `b` was and is idempotent (no double-anchoring),
and under it the `m.len()` of token_matcher.rs and the `m.end()` of
matcher.rs coincide.  The compiler itself is modelled from the spec
(`compileRegex`); the `matches` functions are from src. -/
theorem C1_regex_anchoring (b : Bool) (r : RE) (s : List Char) :
    compileRegex ⟨r, b⟩ = ⟨r, true⟩ ∧
    compileRegex (compileRegex ⟨r, b⟩) = compileRegex ⟨r, b⟩ ∧
    (TokenMatcher.Regex (compileRegex ⟨r, b⟩)).matches s =
      (MatcherPattern.Regex (compileRegex ⟨r, b⟩)).matches s ∧
    (∀ n, (TokenMatcher.Regex (compileRegex ⟨r, b⟩)).matches s = some n →
      ∃ k, k ≤ s.length ∧ n = utf8Len (s.take k) ∧ RMatch r (s.take k)) ∧
    ((TokenMatcher.Regex (compileRegex ⟨r, b⟩)).matches s = none ↔
      ∀ k, k ≤ s.length → ¬ RMatch r (s.take k)) := by
  have hanch : (compileRegex ⟨r, b⟩).anchored = true := rfl
  have hre : (compileRegex ⟨r, b⟩).re = r := rfl
  have hbridge := anchored_tokenMatcher_matches hanch s
  have hbridge2 := anchored_matcherPattern_matches hanch s
  rw [hre] at hbridge hbridge2
  refine ⟨rfl, rfl, ?_, ?_, ?_⟩
  · rw [hbridge, hbridge2]
  · intro n hn
    rw [hbridge] at hn
    match hh : (ends r s).head? with
    | none => rw [hh] at hn; exact absurd hn (by simp)
    | some e =>
      rw [hh] at hn
      have he := List.mem_of_mem_head? (Option.mem_def.mpr hh)
      refine ⟨e, mem_ends_le r s e he, ?_, ends_sound r s e he⟩
      have h2 : utf8Len (s.take e) = n := by simpa using hn
      omega
  · constructor
    · intro hnone k hk hmatch
      rw [hbridge] at hnone
      have hmem : k ∈ ends r s := ends_complete hmatch s k hk rfl
      match hh : (ends r s).head? with
      | some e => rw [hh] at hnone; exact absurd hnone (by simp)
      | none =>
        have hnil := List.head?_eq_none_iff.mp hh
        rw [hnil] at hmem
        exact absurd hmem (by simp)
    · intro hno
      rw [hbridge]
      match hh : (ends r s).head? with
      | none => simp
      | some e =>
        have he := List.mem_of_mem_head? (Option.mem_def.mpr hh)
        exact absurd (ends_sound r s e he) (hno e (mem_ends_le r s e he))

/-- Witness for C1: the compiled single-character expression matches the
one-byte prefix of a concrete input. -/
theorem C1_witness :
    ∃ k, k ≤ (['x', 'y'] : List Char).length ∧
      1 = utf8Len ((['x', 'y'] : List Char).take k) ∧
      RMatch (RE.char 'x') ((['x', 'y'] : List Char).take k) :=
  (C1_regex_anchoring false (RE.char 'x') ['x', 'y']).2.2.2.1 1 (by decide)

/-- Claim C9: if every matcher in the table, whenever it returns
`Some(len)` on a non-empty remaining input, returns `len ≥ 1`, then the
scan loop of `Lexer::lex` terminates on every finite input: a fuel budget
of one iteration per input byte (plus one) is never exhausted, because
each iteration either returns or strictly shrinks the byte length of the
remaining input.  Without the positive-progress condition a zero-length
match loops forever: a table whose matcher always reports length 0
exhausts every fuel budget on the input `"a"`. -/
theorem C9_termination {T : Type} :
    (∀ (matchers : List (TokenCreator T × TokenMatcher)),
      (∀ cm ∈ matchers, ∀ (rem : List Char) (len : Nat), rem ≠ [] →
        cm.2.matches rem = some len → 1 ≤ len) →
      ∀ (fuel : Nat) (rem : List Char) (pos : Nat), utf8Len rem < fuel →
        lexFuel matchers fuel rem pos ≠ none) ∧
    (∀ (fuel pos : Nat),
      lexFuel [((TokenCreator.None : TokenCreator T), TokenMatcher.Fn (fun _ => some 0))]
        fuel ['a'] pos = none) := by
  constructor
  · intro matchers hprog fuel
    induction fuel with
    | zero => intro rem pos h; omega
    | succ fuel ih =>
      intro rem pos h
      match rem with
      | [] => simp [lexFuel]
      | c :: tail =>
        simp only [lexFuel]
        split
        · simp
        · rename_i creator len hfm
          obtain ⟨m, hmem, hmat⟩ := firstMatch_mem hfm
          have hlen1 : 1 ≤ len := hprog (creator, m) hmem (c :: tail) len (by simp) hmat
          split
          · simp
          · rename_i text rest htb
            obtain ⟨hsplit, hbl⟩ := takeBytes_sound _ _ _ _ htb
            have hrest : utf8Len rest < fuel := by
              have hsum : utf8Len (c :: tail) = len + utf8Len rest := by
                rw [hsplit, utf8Len_append, hbl]
              omega
            have hne := ih rest (pos + len) hrest
            split
            · rename_i hrec; exact absurd hrec hne
            · simp
            · simp
            · split <;> simp
  · intro fuel
    induction fuel with
    | zero => intro pos; rfl
    | succ fuel ih =>
      intro pos
      simp only [lexFuel, firstMatch, TokenMatcher.matches, takeBytes]
      simp [ih pos]

/-- Witness for C9: a one-byte literal table satisfies positive progress,
so two units of fuel settle the one-byte input. -/
theorem C9_witness :
    lexFuel [((TokenCreator.Cloned 0 : TokenCreator Nat), TokenMatcher.Literal ['a'])]
      2 ['a'] 0 ≠ none :=
  (C9_termination (T := Nat)).1
    [((TokenCreator.Cloned 0 : TokenCreator Nat), TokenMatcher.Literal ['a'])]
    (by
      intro cm hcm rem len hne hm
      simp only [List.mem_singleton] at hcm
      subst hcm
      simp only [TokenMatcher.matches] at hm
      split at hm
      · have h1 : utf8Len ['a'] = 1 := by decide
        have h2 := Option.some.inj hm
        omega
      · exact absurd hm (by simp))
    2 ['a'] 0 (by decide)

/-- Claim C10: the byte slices taken by `Lexer::lex` stay in bounds and on
character boundaries — so no step can panic — provided every matcher only
reports lengths that are character-boundary offsets of the probed text
(`∃ k ≤ rem.length, utf8Len (rem.take k) = len`).  Literal matchers and
start-anchored regex matchers satisfy that precondition; an unanchored
regex whose match starts mid-input can report a length (`m.len()` in
token_matcher.rs) that splits a multi-byte character, as the concrete
pattern `x` against `éx` shows: it reports 1, which is not a boundary of
`éx` (boundaries: 0, 2, 3). -/
theorem C10_slicing_totality {T : Type} :
    (∀ (matchers : List (TokenCreator T × TokenMatcher)),
      (∀ cm ∈ matchers, ∀ (rem : List Char) (len : Nat), cm.2.matches rem = some len →
        ∃ k, k ≤ rem.length ∧ utf8Len (rem.take k) = len) →
      ∀ (fuel : Nat) (rem : List Char) (pos : Nat),
        lexFuel matchers fuel rem pos ≠ some .panic) ∧
    (∀ (s rem : List Char) (len : Nat), (TokenMatcher.Literal s).matches rem = some len →
      ∃ k, k ≤ rem.length ∧ utf8Len (rem.take k) = len) ∧
    (∀ (p : CompiledRegex), p.anchored = true → ∀ (rem : List Char) (len : Nat),
      (TokenMatcher.Regex p).matches rem = some len →
      ∃ k, k ≤ rem.length ∧ utf8Len (rem.take k) = len) ∧
    ((TokenMatcher.Regex ⟨RE.char 'x', false⟩).matches ['é', 'x'] = some 1 ∧
      ∀ k, k ≤ (['é', 'x'] : List Char).length →
        utf8Len ((['é', 'x'] : List Char).take k) ≠ 1) := by
  refine ⟨?_, ?_, ?_, ?_⟩
  · intro matchers hb fuel
    induction fuel with
    | zero => intro rem pos; simp [lexFuel]
    | succ fuel ih =>
      intro rem pos
      match rem with
      | [] => simp [lexFuel]
      | c :: tail =>
        simp only [lexFuel]
        split
        · simp
        · rename_i creator len hfm
          obtain ⟨m, hmem, hmat⟩ := firstMatch_mem hfm
          obtain ⟨k, hk, hbl⟩ := hb (creator, m) hmem (c :: tail) len hmat
          have htb : takeBytes (c :: tail) len =
              some ((c :: tail).take k, (c :: tail).drop k) := by
            rw [← hbl]
            exact takeBytes_take k (c :: tail) hk
          split
          · rename_i heq
            rw [htb] at heq
            exact absurd heq (by simp)
          · rename_i text rest htb2
            split
            · simp
            · rename_i hrec
              exact absurd hrec (ih rest (pos + len))
            · simp
            · split <;> simp
  · intro s rem len hm
    simp only [TokenMatcher.matches] at hm
    split at hm
    · rename_i hpre
      obtain ⟨t, rfl⟩ := List.isPrefixOf_iff_prefix.mp hpre
      refine ⟨s.length, by simp, ?_⟩
      rw [List.take_left]
      exact Option.some.inj hm
    · exact absurd hm (by simp)
  · intro p hp rem len hm
    rw [anchored_tokenMatcher_matches hp] at hm
    match hh : (ends p.re rem).head? with
    | none => rw [hh] at hm; exact absurd hm (by simp)
    | some e =>
      rw [hh] at hm
      have he := List.mem_of_mem_head? (Option.mem_def.mpr hh)
      have h2 : utf8Len (rem.take e) = len := by simpa using hm
      exact ⟨e, mem_ends_le p.re rem e he, h2⟩
  · exact ⟨by decide, by decide⟩

/-- Witness for C10: the no-panic part applied to a concrete literal table
whose boundary obligation is discharged through the literal part of the
same theorem. -/
theorem C10_witness :
    lexFuel [((TokenCreator.Cloned 0 : TokenCreator Nat), TokenMatcher.Literal ['a'])]
      2 ['a'] 0 ≠ some .panic :=
  (C10_slicing_totality (T := Nat)).1
    [((TokenCreator.Cloned 0 : TokenCreator Nat), TokenMatcher.Literal ['a'])]
    (by
      intro cm hcm rem len hm
      simp only [List.mem_singleton] at hcm
      subst hcm
      exact (C10_slicing_totality (T := Nat)).2.1 ['a'] rem len hm)
    2 ['a'] 0

/-- Claim C7: when a `Parser` creator's field constructor fails on a
matched span starting at byte offset `cursor`, the batch scan surfaces
the field-parse error variant carrying `cursor` (the start of the matched
span, not the post-match cursor `cursor + len`) with the original failure
as nested cause, and scanning halts — the result is that error, with no
tokens, whatever cleanly-matching input followed.  The error wrapping is
the source's `IntoTokenResult`/`TokenParser` (token_parser.rs); the
engine around it is modelled from the spec (§4.4). -/
theorem C7_parser_failure_halts {ε T : Type} (skips : List TokenMatcher)
    (rules : List (TokenMatcher × Creator ε T)) (fuel cursor len : Nat) (c : Char)
    (tail text rest : List Char) (f : List Char → Except ε T) (cause : ε)
    (hskip : firstSkip skips (c :: tail) = none)
    (hrule : firstRule rules (c :: tail) = some (Creator.Parser f, len))
    (htb : takeBytes (c :: tail) len = some (text, rest))
    (hf : f text = .error cause) :
    scanFuel skips rules (fuel + 1) (c :: tail) cursor =
      some (.err (.TokenParseError cursor cause)) ∧
    ∀ toks, scanFuel skips rules (fuel + 1) (c :: tail) cursor ≠ some (.ok toks) := by
  have hcreate : (Creator.Parser f).create text cursor =
      .error (.TokenParseError cursor cause) := by
    simp [Creator.create, parseWith, intoTokenResult, hf, Except.map]
  constructor
  · simp [scanFuel, hskip, hrule, htb, hcreate]
  · intro toks
    simp [scanFuel, hskip, hrule, htb, hcreate]

/-- Witness for C7: a parser that always fails with cause `7` on the span
starting at offset 5 yields exactly that field-parse error. -/
theorem C7_witness :
    scanFuel ([] : List TokenMatcher)
      [(TokenMatcher.Literal ['a'],
        (Creator.Parser (fun _ => Except.error 7) : Creator Nat Nat))]
      1 ['a'] 5 = some (.err (.TokenParseError 5 7)) :=
  (C7_parser_failure_halts [] [(TokenMatcher.Literal ['a'],
      (Creator.Parser (fun _ => Except.error 7) : Creator Nat Nat))]
    0 5 1 'a' [] ['a'] [] (fun _ => Except.error 7) 7 rfl rfl rfl rfl).1

/-- Claim C3: on every input on which `lex` returns `Ok(tokens)`, the
token spans `[position, position + byte length of contents)` are pairwise
disjoint with non-decreasing start positions in emission order, and
together with the skipped spans they exactly partition
`[0, byte length of input)`: there is a gapless, overlap-free chain of
consecutive spans covering the whole input whose emitted members are
exactly the tokens' spans, and the emitted plus skipped lengths sum to
the total input byte length. -/
theorem C3_span_partition {T : Type} (matchers : List (TokenCreator T × TokenMatcher))
    (source : List Char) (toks : List (Token T))
    (h : lex matchers source = some (.ok toks)) :
    toks.Pairwise (fun a b => a.position + utf8Len a.contents ≤ b.position) ∧
    toks.Pairwise (fun a b => a.position ≤ b.position) ∧
    ∃ spans : List (Nat × Nat × Bool),
      spansChain 0 spans (utf8Len source) ∧
      toks.map (fun t => (t.position, utf8Len t.contents)) =
        (spans.filter (fun x => x.2.2)).map (fun x => (x.1, x.2.1)) ∧
      (toks.map (fun t => utf8Len t.contents)).sum +
        ((spans.filter (fun x => !x.2.2)).map (fun x => x.2.1)).sum = utf8Len source := by
  obtain ⟨spans, hchain, heq⟩ :=
    lexFuel_spans matchers (utf8Len source + 1) source 0 toks h
  rw [Nat.zero_add] at hchain
  have hpw : spans.Pairwise (fun a b => a.1 + a.2.1 ≤ b.1) :=
    spansChain_pairwise spans 0 (utf8Len source) hchain
  have hpwf : (spans.filter (fun x => x.2.2)).Pairwise (fun a b => a.1 + a.2.1 ≤ b.1) :=
    hpw.sublist (List.filter_sublist spans)
  have hpwm : ((spans.filter (fun x => x.2.2)).map (fun x => (x.1, x.2.1))).Pairwise
      (fun a b => a.1 + a.2 ≤ b.1) := List.pairwise_map.mpr hpwf
  rw [← heq] at hpwm
  have hpairs : toks.Pairwise (fun a b => a.position + utf8Len a.contents ≤ b.position) :=
    List.pairwise_map.mp hpwm
  refine ⟨hpairs, hpairs.imp (fun hab => by omega), spans, hchain, heq, ?_⟩
  have hsum := spansChain_sum spans 0 (utf8Len source) hchain
  rw [Nat.zero_add] at hsum
  have hsplitsum := sum_map_filter_split (fun x => x.2.2) (fun x => x.2.1) spans
  have hts : (toks.map (fun t => utf8Len t.contents)).sum =
      ((spans.filter (fun x => x.2.2)).map (fun x => x.2.1)).sum := by
    have hcong := congrArg (fun l => (List.map Prod.snd l).sum) heq
    simpa [List.map_map, Function.comp] using hcong
  omega

/-- Witness for C3: a table with one emitting literal rule and one skip
rule partitions the three-byte input into two emitted spans and one
skipped span. -/
theorem C3_witness :
    ([⟨0, ['a'], 0⟩, ⟨0, ['a'], 2⟩] : List (Token Nat)).Pairwise
      (fun a b => a.position + utf8Len a.contents ≤ b.position) :=
  (C3_span_partition
    [((TokenCreator.Cloned 0 : TokenCreator Nat), TokenMatcher.Literal ['a']),
      ((TokenCreator.None : TokenCreator Nat), TokenMatcher.Literal [' '])]
    ['a', ' ', 'a'] [⟨0, ['a'], 0⟩, ⟨0, ['a'], 2⟩] (by decide)).1
